import Mathlib

/-!
# PQ-gram profiles and edit distance: a shallow embedding

This file embeds the core of `pqgrams/PQGram.py` (the `Profile` class: profile
construction, the sorted merge-scan intersection, and the normalized PQ-gram
edit distance) as executable Lean definitions, and proves the specified
properties about them.

Modelling conventions:
* Python tuples of labels become `List String`; Python tuple comparison (`==`,
  `<`) is structural equality and the lexicographic order on `List String`
  (Mathlib's `List` linear order, whose `<` is `List.Lex (· < ·)`), which
  agrees with Python's elementwise tuple comparison over strings.
* `collections.deque(·, maxlen = m)` becomes a list of length at most `m`
  whose `append` evicts the oldest (leftmost) element when full.
* Python's stable `list.sort(key = ...)` becomes `List.insertionSort` ordered
  by the key: both are stable sorts, and a stable sort with respect to a total
  preorder on keys has a unique output, so the model agrees with CPython's
  Timsort.
* The comparisons (`str.__lt__`, tuple `__lt__`) are given as executable
  boolean functions on code-point sequences, mirroring Python's semantics;
  bridge lemmas identify them with Mathlib's lexicographic `String` and
  `List String` orders.
* The merge-scan loop carries explicit fuel (initialized to the combined
  length, which the loop never exceeds since every iteration advances at
  least one pointer) so that it is structurally recursive; `interLoopF_fuel`
  shows the fuel is irrelevant once sufficient.
* Float arithmetic in `edit_distance` is modelled exactly over `ℚ`: the
  intersection count is a nonnegative integer and the distance is a single
  division, so rational arithmetic captures the intended value.
-/

/-- Modelled from the spec: the tree abstraction consumed by the core
(`pqgrams/tree.py` is absent from the sources; per the spec it is an external
collaborator providing, for each node, a label and an ordered sequence of
children, with no other structure). -/
inductive Node where
  | node (label : String) (children : List Node)

/-- `node.label` of the tree abstraction. -/
def Node.label : Node → String
  | .node l _ => l

/-- `node.children` of the tree abstraction. -/
def Node.children : Node → List Node
  | .node _ cs => cs

/-- A PQ-gram: a tuple of `p + q` labels (`self.append(tuple(value))`). -/
abbrev Gram := List String

namespace Profile

/-- `collections.deque` append with `maxlen = cap`: when the deque is full the
oldest (leftmost) element is evicted; a deque with `maxlen = 0` stays empty. -/
def dequeAppend (cap : Nat) (w : List String) (x : String) : List String :=
  if cap = 0 then w
  else if w.length < cap then w ++ [x]
  else w.tail ++ [x]

/-- The trailing `for i in range(q-1)` loop of `Profile.profile`: repeatedly
append `"*"` to the sibling window and emit `ancestors ++ siblings`. -/
def profileClose (q : Nat) (anc : List String) (sib : List String) : Nat → List Gram
  | 0 => []
  | n + 1 =>
    let sib' := dequeAppend q sib "*"
    (anc ++ sib') :: profileClose q anc sib' n

mutual

/-- `Profile.profile(root, p, q, ancestors)`: append the node label to the
ancestor window, start a fresh all-placeholder sibling window; a leaf emits one
gram, an internal node emits one gram per child (recursing into the child with
a copy of the ancestor window) followed by `q - 1` closing grams. The list is
in emission order. -/
def profileStep (t : Node) (p q : Nat) (ancestors : List String) : List Gram :=
  match t with
  | .node lbl children =>
    let anc := dequeAppend p ancestors lbl
    match children with
    | [] => [anc ++ List.replicate q "*"]
    | c :: cs =>
      let r := profileChildren (c :: cs) p q anc (List.replicate q "*")
      r.1 ++ profileClose q anc r.2 (q - 1)

/-- The `for child in root.children` loop of `Profile.profile`: push the child
label into the sliding sibling window, emit `ancestors ++ siblings`, then the
child's recursive grams. Returns the emitted grams and the final sibling
window (used by the closing loop). -/
def profileChildren (cs : List Node) (p q : Nat) (anc : List String)
    (sib : List String) : List Gram × List String :=
  match cs with
  | [] => ([], sib)
  | c :: rest =>
    let sib' := dequeAppend q sib c.label
    let sub := profileStep c p q anc
    let r := profileChildren rest p q anc sib'
    ((anc ++ sib') :: (sub ++ r.1), r.2)

end

/-- Python's string comparison `s < t`: lexicographic on the code-point
sequences of the two strings. -/
def charsLt : List Char → List Char → Bool
  | [], [] => false
  | [], _ :: _ => true
  | _ :: _, [] => false
  | a :: as, b :: bs =>
    if a < b then true
    else if b < a then false
    else charsLt as bs

/-- Python's `str.__lt__`, applied to labels and to join keys. -/
def labelLt (a b : String) : Bool := charsLt a.data b.data

/-- Python's tuple comparison `gramA < gramB`: the first pair of unequal
labels decides, by string comparison; a strict prefix precedes. -/
def gramLt : Gram → Gram → Bool
  | [], [] => false
  | [], _ :: _ => true
  | _ :: _, [] => false
  | a :: as, b :: bs => if a = b then gramLt as bs else labelLt a b

/-- The sort key of `Profile.sort`: `''.join(x)`. -/
def joinKey (g : Gram) : String := String.join g

/-- The ordering used by `self.list.sort(key=lambda x: ''.join(x))`:
`a` may precede `b` exactly when `join(b) < join(a)` fails. -/
def gramLE (a b : Gram) : Bool := !(labelLt (joinKey b) (joinKey a))

/-- `Profile.__init__(root, p, q)` for the in-range case: build the gram list
with a `p`-placeholder ancestor window, then stable-sort it by the join key. -/
def build (root : Node) (p q : Nat) : List Gram :=
  List.insertionSort (fun a b => gramLE a b = true)
    (profileStep root p q (List.replicate p "*"))

/-- The loop of `Profile.intersection`, with explicit fuel. Each iteration
adds `gram_edit_distance(self[i], other[j])` — `1` on equality, `0`
otherwise — then advances both pointers on equality, only `i` when
`self[i] < other[j]`, and only `j` otherwise. Dropped list heads model the
advanced pointers; the loop ends when either list is exhausted. -/
def interLoopF : Nat → List Gram → List Gram → Nat
  | _, [], _ => 0
  | _, _ :: _, [] => 0
  | 0, _ :: _, _ :: _ => 0
  | fuel + 1, a :: as, b :: bs =>
    if a = b then interLoopF fuel as bs + 1
    else if gramLt a b then interLoopF fuel as (b :: bs)
    else interLoopF fuel (a :: as) bs

/-- `Profile.intersection`: the merge-scan run to completion (the combined
length bounds the number of iterations, so this fuel is sufficient). -/
def interLoop (A B : List Gram) : Nat := interLoopF (A.length + B.length) A B

/-- `Profile.edit_distance`: `union = len(self) + len(other)`;
`1.0 - 2.0 * (self.intersection(other) / union)`, over `ℚ`. -/
def editDistance (A B : List Gram) : ℚ :=
  1 - 2 * ((interLoop A B : ℚ) / ((A.length : ℚ) + (B.length : ℚ)))

/-- `Profile.__init__` with Python's actual error behavior for out-of-range
parameters, `p` and `q` taken as integers: `collections.deque(·, maxlen=p)`
raises `ValueError` for negative `maxlen` (for negative `q` this happens at
the first visited node, inside the traversal, not before it); there is no
other validation — `p = 0` and `q = 0` construct successfully. -/
def init (root : Node) (p q : Int) : Except String (List Gram) :=
  if p < 0 then .error "ValueError: maxlen must be non-negative"
  else if q < 0 then .error "ValueError: maxlen must be non-negative"
  else .ok (build root p.toNat q.toNat)

end Profile

/-- The single-node tree `tree.Node("a")` of the test suite. -/
def singleNodeA : Node := .node "a" []

/-- The test suite's `known_tree1`: `a(a(e,b), b, c)`. -/
def knownTree1 : Node :=
  .node "a" [.node "a" [.node "e" [], .node "b" []], .node "b" [], .node "c" []]

/-- The test suite's `known_tree2`: `a(a(e,b), b, x)`. -/
def knownTree2 : Node :=
  .node "a" [.node "a" [.node "e" [], .node "b" []], .node "b" [], .node "x" []]

/-- A tree whose `(p,q) = (1,1)` profile contains the two distinct grams
`("ab","c")` and `("a","bc")`, whose label concatenations coincide, in
traversal order `("ab","c")` first. -/
def mixTree1 : Node := .node "r" [.node "ab" [.node "c" []], .node "a" [.node "bc" []]]

/-- The same multiset of nodes as `mixTree1` with the two subtrees swapped,
so the join-key tie is resolved in the other traversal order. -/
def mixTree2 : Node := .node "r" [.node "a" [.node "bc" []], .node "ab" [.node "c" []]]

namespace Profile

/-! ## Bridging the executable comparisons to Mathlib's lexicographic orders -/

theorem charsLt_iff (as bs : List Char) :
    charsLt as bs = true ↔ List.Lex (· < ·) as bs := by
  induction as generalizing bs with
  | nil =>
    cases bs with
    | nil =>
      simp only [charsLt, Bool.false_eq_true, false_iff]
      exact List.Lex.not_nil_right _ _
    | cons b bs => simp only [charsLt, true_iff]; exact List.Lex.nil
  | cons a as ih =>
    cases bs with
    | nil =>
      simp only [charsLt, Bool.false_eq_true, false_iff]
      exact List.Lex.not_nil_right _ _
    | cons b bs =>
      simp only [charsLt]
      by_cases hab : a < b
      · simp only [if_pos hab, true_iff]
        exact List.Lex.rel hab
      · rw [if_neg hab]
        by_cases hba : b < a
        · simp only [if_pos hba, Bool.false_eq_true, false_iff]
          intro h
          cases h with
          | cons h => exact lt_irrefl _ hba
          | rel h => exact hab h
        · rw [if_neg hba]
          have hde : a = b := le_antisymm (not_lt.mp hba) (not_lt.mp hab)
          subst hde
          rw [ih]
          exact (List.Lex.cons_iff (r := (· < ·))).symm

theorem labelLt_iff (a b : String) : labelLt a b = true ↔ a < b := by
  rw [labelLt, charsLt_iff]
  exact String.lt_iff_toList_lt.symm

theorem gramLt_iff (a b : Gram) : gramLt a b = true ↔ a < b := by
  show gramLt a b = true ↔ List.Lex (· < ·) a b
  induction a generalizing b with
  | nil =>
    cases b with
    | nil =>
      simp only [gramLt, Bool.false_eq_true, false_iff]
      exact List.Lex.not_nil_right _ _
    | cons y ys => simp only [gramLt, true_iff]; exact List.Lex.nil
  | cons x xs ih =>
    cases b with
    | nil =>
      simp only [gramLt, Bool.false_eq_true, false_iff]
      exact List.Lex.not_nil_right _ _
    | cons y ys =>
      simp only [gramLt]
      by_cases hxy : x = y
      · subst hxy
        rw [if_pos rfl, ih]
        exact (List.Lex.cons_iff (r := (· < ·))).symm
      · rw [if_neg hxy, labelLt_iff]
        constructor
        · exact fun h => List.Lex.rel h
        · intro h
          cases h with
          | cons _ => exact absurd rfl hxy
          | rel h => exact h

theorem gramLE_iff (a b : Gram) : gramLE a b = true ↔ joinKey a ≤ joinKey b := by
  rw [gramLE, Bool.not_eq_true', ← not_lt, ← Bool.not_eq_true]
  exact not_congr (labelLt_iff _ _)

/-! ## The merge-scan loop -/

theorem interLoopF_fuel (f : Nat) : ∀ (f' : Nat) (A B : List Gram),
    A.length + B.length ≤ f → A.length + B.length ≤ f' →
    interLoopF f A B = interLoopF f' A B := by
  induction f with
  | zero =>
    intro f' A B h h'
    cases A with
    | nil => simp [interLoopF]
    | cons a as => simp at h
  | succ f ih =>
    intro f' A B h h'
    cases A with
    | nil => simp [interLoopF]
    | cons a as =>
      cases B with
      | nil => simp [interLoopF]
      | cons b bs =>
        simp only [List.length_cons] at h h'
        cases f' with
        | zero => omega
        | succ f'' =>
          simp only [interLoopF]
          split_ifs
          · rw [ih f'' as bs (by omega) (by omega)]
          · rw [ih f'' as (b :: bs) (by simp only [List.length_cons]; omega)
              (by simp only [List.length_cons]; omega)]
          · rw [ih f'' (a :: as) bs (by simp only [List.length_cons]; omega)
              (by simp only [List.length_cons]; omega)]

theorem interLoop_nil_left (B : List Gram) : interLoop [] B = 0 := by
  simp [interLoop, interLoopF]

theorem interLoop_nil_right (A : List Gram) : interLoop A [] = 0 := by
  cases A <;> simp [interLoop, interLoopF]

theorem interLoopF_self (f : Nat) : ∀ A : List Gram,
    A.length + A.length ≤ f → interLoopF f A A = A.length := by
  induction f with
  | zero =>
    intro A h
    cases A with
    | nil => simp [interLoopF]
    | cons a as => simp at h
  | succ f ih =>
    intro A h
    cases A with
    | nil => simp [interLoopF]
    | cons a as =>
      simp only [List.length_cons] at h ⊢
      rw [show interLoopF (f + 1) (a :: as) (a :: as) = interLoopF f as as + 1 by
        simp [interLoopF]]
      rw [ih as (by omega)]

theorem interLoop_self (A : List Gram) : interLoop A A = A.length :=
  interLoopF_self _ A le_rfl

theorem interLoopF_comm (f : Nat) : ∀ A B : List Gram,
    A.length + B.length ≤ f → interLoopF f A B = interLoopF f B A := by
  induction f with
  | zero =>
    intro A B h
    cases A with
    | nil => cases B <;> simp [interLoopF]
    | cons a as => simp at h
  | succ f ih =>
    intro A B h
    cases A with
    | nil => cases B <;> simp [interLoopF]
    | cons a as =>
      cases B with
      | nil => simp [interLoopF]
      | cons b bs =>
        simp only [List.length_cons] at h
        simp only [interLoopF]
        rcases eq_or_ne a b with rfl | hne
        · rw [if_pos rfl, if_pos rfl, ih as bs (by omega)]
        · rw [if_neg hne, if_neg (Ne.symm hne)]
          rcases lt_trichotomy a b with hlt | heq | hgt
          · rw [if_pos ((gramLt_iff _ _).mpr hlt),
              if_neg (fun h' => lt_asymm hlt ((gramLt_iff _ _).mp h')),
              ih as (b :: bs) (by simp only [List.length_cons]; omega)]
          · exact absurd heq hne
          · rw [if_neg (fun h' => lt_asymm hgt ((gramLt_iff _ _).mp h')),
              if_pos ((gramLt_iff _ _).mpr hgt),
              ih (a :: as) bs (by simp only [List.length_cons]; omega)]

theorem interLoop_comm (A B : List Gram) : interLoop A B = interLoop B A := by
  unfold interLoop
  rw [interLoopF_comm _ A B le_rfl,
    interLoopF_fuel _ (B.length + A.length) B A (by omega) (by omega)]

theorem interLoopF_le_min (f : Nat) : ∀ A B : List Gram,
    A.length + B.length ≤ f → interLoopF f A B ≤ min A.length B.length := by
  induction f with
  | zero =>
    intro A B h
    cases A with
    | nil => simp [interLoopF]
    | cons a as => simp at h
  | succ f ih =>
    intro A B h
    cases A with
    | nil => simp [interLoopF]
    | cons a as =>
      cases B with
      | nil => simp [interLoopF]
      | cons b bs =>
        simp only [List.length_cons] at h ⊢
        simp only [interLoopF]
        split_ifs
        · have := ih as bs (by omega)
          omega
        · have := ih as (b :: bs) (by simp only [List.length_cons]; omega)
          simp only [List.length_cons] at this
          omega
        · have := ih (a :: as) bs (by simp only [List.length_cons]; omega)
          simp only [List.length_cons] at this
          omega

theorem interLoop_le_min (A B : List Gram) :
    interLoop A B ≤ min A.length B.length :=
  interLoopF_le_min _ A B le_rfl

/-- On inputs sorted by the comparison order the scan uses, the merge-scan
computes the multiset-intersection size. -/
theorem interLoopF_sorted (f : Nat) : ∀ A B : List Gram,
    A.length + B.length ≤ f →
    List.Sorted (· ≤ ·) A → List.Sorted (· ≤ ·) B →
    interLoopF f A B = Multiset.card ((A : Multiset Gram) ∩ (B : Multiset Gram)) := by
  induction f with
  | zero =>
    intro A B h _ _
    cases A with
    | nil => simp [interLoopF]
    | cons a as => simp at h
  | succ f ih =>
    intro A B h hA hB
    cases A with
    | nil => simp [interLoopF]
    | cons a as =>
      cases B with
      | nil => simp [interLoopF]
      | cons b bs =>
        simp only [List.length_cons] at h
        simp only [interLoopF]
        rcases eq_or_ne a b with rfl | hne
        · rw [if_pos rfl, ← Multiset.cons_coe, ← Multiset.cons_coe,
            ← Multiset.cons_inter_distrib, Multiset.card_cons,
            ih as bs (by omega) hA.of_cons hB.of_cons]
        · rw [if_neg hne]
          by_cases hlt : gramLt a b = true
          · rw [if_pos hlt]
            have hab : a < b := (gramLt_iff _ _).mp hlt
            have hnm : (a : Gram) ∉ (↑(b :: bs) : Multiset Gram) := by
              rw [Multiset.mem_coe]
              intro hmem
              rcases List.mem_cons.mp hmem with rfl | hmem
              · exact lt_irrefl a hab
              · exact absurd hab (not_lt.mpr ((List.sorted_cons.mp hB).1 a hmem))
            rw [← Multiset.cons_coe, Multiset.cons_inter_of_neg _ hnm]
            exact ih as (b :: bs) (by simp only [List.length_cons]; omega) hA.of_cons hB
          · rw [if_neg hlt]
            have hba : b < a := by
              rcases lt_trichotomy a b with h' | h' | h'
              · exact absurd ((gramLt_iff _ _).mpr h') hlt
              · exact absurd h' hne
              · exact h'
            have hnm : (b : Gram) ∉ (↑(a :: as) : Multiset Gram) := by
              rw [Multiset.mem_coe]
              intro hmem
              rcases List.mem_cons.mp hmem with rfl | hmem
              · exact lt_irrefl b hba
              · exact absurd hba (not_lt.mpr ((List.sorted_cons.mp hA).1 b hmem))
            have hdrop : (↑(a :: as) : Multiset Gram) ∩ ↑(b :: bs) = ↑(a :: as) ∩ ↑bs := by
              rw [Multiset.inter_comm, ← Multiset.cons_coe,
                Multiset.cons_inter_of_neg _ hnm, Multiset.inter_comm]
            rw [hdrop]
            exact ih (a :: as) bs (by simp only [List.length_cons]; omega) hA hB.of_cons

theorem interLoop_sorted (A B : List Gram)
    (hA : List.Sorted (· ≤ ·) A) (hB : List.Sorted (· ≤ ·) B) :
    interLoop A B = Multiset.card ((A : Multiset Gram) ∩ (B : Multiset Gram)) :=
  interLoopF_sorted _ A B le_rfl hA hB

/-! ## The profile builder never yields an empty profile -/

theorem profileStep_ne_nil (t : Node) (p q : Nat) (anc : List String) :
    profileStep t p q anc ≠ [] := by
  cases t with
  | node lbl children =>
    cases children with
    | nil => simp [profileStep]
    | cons c cs => simp [profileStep, profileChildren]

theorem length_build (t : Node) (p q : Nat) :
    (build t p q).length = (profileStep t p q (List.replicate p "*")).length := by
  unfold build
  exact (List.perm_insertionSort _ _).length_eq

theorem build_ne_nil (t : Node) (p q : Nat) : build t p q ≠ [] := by
  intro h
  have h0 : (build t p q).length = 0 := by rw [h]; rfl
  rw [length_build] at h0
  exact profileStep_ne_nil t p q _ (List.length_eq_zero.mp h0)

theorem build_length_pos (t : Node) (p q : Nat) : 0 < (build t p q).length :=
  List.length_pos.mpr (build_ne_nil t p q)

/-! ## The claims -/

/-- C1: for Profiles `A` and `B` with `len(A) + len(B) > 0`, `edit_distance`
returns exactly `1.0 - 2.0 * intersection(A,B) / (len(A) + len(B))`. -/
theorem editDistance_eq_formula (A B : List Gram) (h : 0 < A.length + B.length) :
    editDistance A B =
      1 - 2 * (interLoop A B : ℚ) / ((A.length : ℚ) + (B.length : ℚ)) := by
  unfold editDistance
  rw [mul_div_assoc]

/-- Witness for C1 at the profile of the single-node tree. -/
theorem editDistance_eq_formula_witness :
    0 < (build singleNodeA 2 3).length + (build singleNodeA 2 3).length ∧
    editDistance (build singleNodeA 2 3) (build singleNodeA 2 3) =
      1 - 2 * (interLoop (build singleNodeA 2 3) (build singleNodeA 2 3) : ℚ) /
        (((build singleNodeA 2 3).length : ℚ) + ((build singleNodeA 2 3).length : ℚ)) :=
  ⟨by decide, editDistance_eq_formula _ _ (by decide)⟩

/-- C2 (counterexample): the merge-scan count of the intersection is NOT
always the multiset-intersection size for the (join-key-)sorted Profiles the
builder produces: with `p = q = 1`, `mixTree1` and `mixTree2` both yield
profiles containing the unequal grams `("ab","c")` and `("a","bc")`, whose
join keys tie, in opposite orders, and the scan counts 5 of the 6 shared
grams. -/
theorem interLoop_ne_card_inter :
    interLoop (build mixTree1 1 1) (build mixTree2 1 1) ≠
      Multiset.card
        ((build mixTree1 1 1 : Multiset Gram) ∩ (build mixTree2 1 1 : Multiset Gram)) := by
  decide

/-- C2 (amended): on Profiles sorted by the gram comparison order the scan
uses (lexicographic on label tuples), `intersection` equals the
multiset-intersection size, and on any inputs it is at most
`min(len(A), len(B))`. -/
theorem interLoop_eq_card_inter_of_sorted (A B : List Gram)
    (hA : List.Sorted (· ≤ ·) A) (hB : List.Sorted (· ≤ ·) B) :
    interLoop A B = Multiset.card ((A : Multiset Gram) ∩ (B : Multiset Gram)) ∧
    interLoop A B ≤ min A.length B.length :=
  ⟨interLoop_sorted A B hA hB, interLoop_le_min A B⟩

/-- Witness for the amended C2 on a pair of singleton profiles. -/
theorem interLoop_eq_card_inter_of_sorted_witness :
    interLoop [["a"]] [["a"]] =
      Multiset.card (([["a"]] : List Gram) ∩ (([["a"]] : List Gram) : Multiset Gram)) ∧
    interLoop [["a"]] [["a"]] ≤
      min ([["a"]] : List Gram).length ([["a"]] : List Gram).length :=
  interLoop_eq_card_inter_of_sorted [["a"]] [["a"]]
    (List.sorted_singleton _) (List.sorted_singleton _)

/-- C3: for every tree and `p, q ≥ 1`, the Profile is deterministic and at
distance `0` from itself. -/
theorem editDistance_self_eq_zero (t : Node) (p q : Nat)
    (hp : 1 ≤ p) (hq : 1 ≤ q) :
    editDistance (build t p q) (build t p q) = 0 := by
  have hlen := build_length_pos t p q
  have hn : (0 : ℚ) < ((build t p q).length : ℚ) := by exact_mod_cast hlen
  unfold editDistance
  rw [interLoop_self]
  field_simp
  ring

/-- Witness for C3 at the single-node tree with the default `(p, q)`. -/
theorem editDistance_self_eq_zero_witness :
    1 ≤ 2 ∧ 1 ≤ 3 ∧
    editDistance (build singleNodeA 2 3) (build singleNodeA 2 3) = 0 :=
  ⟨by decide, by decide,
    editDistance_self_eq_zero singleNodeA 2 3 (by decide) (by decide)⟩

/-- C4: the edit distance of two tree-built Profiles lies in `[0, 1]`. -/
theorem editDistance_bounds (t₁ t₂ : Node) (p₁ q₁ p₂ q₂ : Nat) :
    0 ≤ editDistance (build t₁ p₁ q₁) (build t₂ p₂ q₂) ∧
    editDistance (build t₁ p₁ q₁) (build t₂ p₂ q₂) ≤ 1 := by
  have hAl := build_length_pos t₁ p₁ q₁
  have hBl := build_length_pos t₂ p₂ q₂
  have hc := interLoop_le_min (build t₁ p₁ q₁) (build t₂ p₂ q₂)
  have hu : (0 : ℚ) <
      ((build t₁ p₁ q₁).length : ℚ) + ((build t₂ p₂ q₂).length : ℚ) := by
    have : 0 < (build t₁ p₁ q₁).length + (build t₂ p₂ q₂).length := by omega
    exact_mod_cast this
  constructor
  · unfold editDistance
    rw [sub_nonneg, ← mul_div_assoc, div_le_one hu]
    have h2 : 2 * interLoop (build t₁ p₁ q₁) (build t₂ p₂ q₂) ≤
        (build t₁ p₁ q₁).length + (build t₂ p₂ q₂).length := by omega
    exact_mod_cast h2
  · unfold editDistance
    have hx : 0 ≤ 2 * ((interLoop (build t₁ p₁ q₁) (build t₂ p₂ q₂) : ℚ) /
        (((build t₁ p₁ q₁).length : ℚ) + ((build t₂ p₂ q₂).length : ℚ))) := by
      positivity
    linarith

/-- C5: the edit distance of two tree-built Profiles is symmetric in its
arguments. -/
theorem editDistance_symm (t₁ t₂ : Node) (p₁ q₁ p₂ q₂ : Nat) :
    editDistance (build t₁ p₁ q₁) (build t₂ p₂ q₂) =
      editDistance (build t₂ p₂ q₂) (build t₁ p₁ q₁) := by
  unfold editDistance
  rw [interLoop_comm, add_comm (((build t₁ p₁ q₁).length : ℚ))]

/-- C6: the constructed Profile is sorted by the lexicographic order of the
join of each gram's labels, and rebuilding from the same tree and `(p, q)`
yields the same, equally-ordered sequence (the builder is a pure function). -/
theorem build_sorted_and_deterministic (t : Node) (p q : Nat)
    (hp : 1 ≤ p) (hq : 1 ≤ q) :
    List.Sorted (fun a b : Gram => joinKey a ≤ joinKey b) (build t p q) ∧
    build t p q = build t p q := by
  refine ⟨?_, rfl⟩
  haveI : IsTotal Gram (fun a b => gramLE a b = true) :=
    ⟨fun a b => by
      rcases le_total (joinKey a) (joinKey b) with h | h
      · exact Or.inl ((gramLE_iff _ _).mpr h)
      · exact Or.inr ((gramLE_iff _ _).mpr h)⟩
  haveI : IsTrans Gram (fun a b => gramLE a b = true) :=
    ⟨fun a b c hab hbc =>
      (gramLE_iff _ _).mpr
        (le_trans ((gramLE_iff _ _).mp hab) ((gramLE_iff _ _).mp hbc))⟩
  exact List.Pairwise.imp (fun hab => (gramLE_iff _ _).mp hab)
    (List.sorted_insertionSort (fun a b : Gram => gramLE a b = true)
      (profileStep t p q (List.replicate p "*")))

/-- Witness for C6 at the single-node tree with the default `(p, q)`. -/
theorem build_sorted_and_deterministic_witness :
    1 ≤ 2 ∧ 1 ≤ 3 ∧
    (List.Sorted (fun a b : Gram => joinKey a ≤ joinKey b) (build singleNodeA 2 3) ∧
      build singleNodeA 2 3 = build singleNodeA 2 3) :=
  ⟨by decide, by decide,
    build_sorted_and_deterministic singleNodeA 2 3 (by decide) (by decide)⟩

/-- C7: the `p = 2, q = 3` Profile of the single node labeled `"a"` is
exactly `[("*","a","*","*","*")]`. -/
theorem build_singleNode :
    build singleNodeA 2 3 = [["*", "a", "*", "*", "*"]] := by decide

/-- C8: with `p = 2, q = 3` the tree `a(a(e,b), b, c)` yields a 13-gram
Profile, and its edit distance to the Profile of `a(a(e,b), b, x)` rounds to
`0.31` at two decimals (`round(distance * 100) = 31`; the exact value is
`4/13`). -/
theorem knownTrees_regression :
    (build knownTree1 2 3).length = 13 ∧
    round (editDistance (build knownTree1 2 3) (build knownTree2 2 3) * 100) = 31 := by
  constructor
  · decide
  · have h9 : interLoop (build knownTree1 2 3) (build knownTree2 2 3) = 9 := by decide
    have hA : (build knownTree1 2 3).length = 13 := by decide
    have hB : (build knownTree2 2 3).length = 13 := by decide
    unfold editDistance
    rw [h9, hA, hB]
    norm_num [round_eq]

/-- C9 (counterexample): constructing a Profile with `p = 0` does not fail at
all — no `InvalidParameter` (or any other) error is raised; the constructor
silently builds a degenerate profile. -/
theorem init_p_zero_succeeds :
    init singleNodeA 0 3 = Except.ok [["*", "*", "*"]] := rfl

/-- C9 (amended): the constructor performs no parameter validation.
Construction succeeds for every `p, q ≥ 0` (so `p = 0` and `q = 0` are
accepted silently), and only negative values fail, with the deque's
`ValueError` — for negative `q` this is raised at the first visited node,
during the traversal, not before it. -/
theorem init_no_validation (t : Node) (p q : Int) :
    (0 ≤ p → 0 ≤ q → init t p q = Except.ok (build t p.toNat q.toNat)) ∧
    ((p < 0 ∨ q < 0) →
      init t p q = Except.error "ValueError: maxlen must be non-negative") := by
  unfold init
  constructor
  · intro hp hq
    rw [if_neg (not_lt.mpr hp), if_neg (not_lt.mpr hq)]
  · intro h
    by_cases hp : p < 0
    · rw [if_pos hp]
    · rw [if_neg hp, if_pos (h.resolve_left hp)]

/-- Witness for the amended C9: `p = 0, q = 3` constructs successfully. -/
theorem init_no_validation_witness :
    init singleNodeA 0 3 = Except.ok (build singleNodeA (0 : Int).toNat (3 : Int).toNat) :=
  (init_no_validation singleNodeA 0 3).1 (by decide) (by decide)

/-- C10: tree-built Profiles are never empty (the builder emits a gram for
every leaf and for every child of an internal node), so the denominator of
`edit_distance` between two tree-built Profiles is at least 2, never zero. -/
theorem build_profiles_nonempty (t₁ t₂ : Node) (p₁ q₁ p₂ q₂ : Nat)
    (hp₁ : 1 ≤ p₁) (hq₁ : 1 ≤ q₁) (hp₂ : 1 ≤ p₂) (hq₂ : 1 ≤ q₂) :
    1 ≤ (build t₁ p₁ q₁).length ∧
    2 ≤ (build t₁ p₁ q₁).length + (build t₂ p₂ q₂).length := by
  have h₁ := build_length_pos t₁ p₁ q₁
  have h₂ := build_length_pos t₂ p₂ q₂
  omega

/-- Witness for C10 on the two test trees. -/
theorem build_profiles_nonempty_witness :
    1 ≤ (build singleNodeA 2 3).length ∧
    2 ≤ (build singleNodeA 2 3).length + (build knownTree1 2 3).length :=
  build_profiles_nonempty singleNodeA knownTree1 2 3 2 3
    (by decide) (by decide) (by decide) (by decide)

end Profile
